import Mathlib

/-!
Verification of the surge multipart transfer engine: a shallow embedding of
its range model, tree-hash algorithm, uploader and downloader state machines,
with theorems checking the specified properties against the embedded code.

Go `int64` values are embedded as `Int`; every arithmetic step of the source
that can overflow is wrapped through `wrap64` (two's-complement wrap-around at
64 bits), matching Go's defined wrap-around semantics. Go strings are embedded
as `List Char`. Fallible Go functions returning `nil` pointers are embedded
as `Option`-valued functions.
-/

namespace Surge

/-- Two's-complement wrap-around of an integer into `[-2^63, 2^63)`:
the value a Go `int64` arithmetic result holds. -/
def wrap64 (x : Int) : Int := (x + 2 ^ 63) % 2 ^ 64 - 2 ^ 63

/-! ## SHA-256 over byte lists

The tree-hash algorithm (spec §3, "TreeHash") leaf-hashes 1 MiB chunks with
SHA-256 and combines digest pairs with SHA-256. The repository calls the
Glacier SDK's `ComputeHashes` for this; the primitive is embedded here
concretely so the digests are computable. Bytes are `Nat` values `< 256`,
32-bit words are `Nat` values reduced mod `2^32` at each step. -/

/-- Right-rotation of a 32-bit word. -/
def rotr32 (n x : Nat) : Nat := ((x >>> n) ||| (x <<< (32 - n))) % 2 ^ 32

/-- SHA-256 round constants (FIPS 180-4, in decimal). -/
def shaK : List Nat :=
  [1116352408, 1899447441, 3049323471, 3921009573, 961987163, 1508970993,
   2453635748, 2870763221, 3624381080, 310598401, 607225278, 1426881987,
   1925078388, 2162078206, 2614888103, 3248222580, 3835390401, 4022224774,
   264347078, 604807628, 770255983, 1249150122, 1555081692, 1996064986,
   2554220882, 2821834349, 2952996808, 3210313671, 3336571891, 3584528711,
   113926993, 338241895, 666307205, 773529912, 1294757372, 1396182291,
   1695183700, 1986661051, 2177026350, 2456956037, 2730485921, 2820302411,
   3259730800, 3345764771, 3516065817, 3600352804, 4094571909, 275423344,
   430227734, 506948616, 659060556, 883997877, 958139571, 1322822218,
   1537002063, 1747873779, 1955562222, 2024104815, 2227730452, 2361852424,
   2428436474, 2756734187, 3204031479, 3329325298]

/-- SHA-256 initial hash state (FIPS 180-4, in decimal). -/
def shaH0 : List Nat :=
  [1779033703, 3144134277, 1013904242, 2773480762,
   1359893119, 2600822924, 528734635, 1541459225]

/-- Message-schedule sigma-0. -/
def sigma0 (x : Nat) : Nat := rotr32 7 x ^^^ rotr32 18 x ^^^ (x >>> 3)

/-- Message-schedule sigma-1. -/
def sigma1 (x : Nat) : Nat := rotr32 17 x ^^^ rotr32 19 x ^^^ (x >>> 10)

/-- Compression Sigma-0. -/
def bigSigma0 (x : Nat) : Nat := rotr32 2 x ^^^ rotr32 13 x ^^^ rotr32 22 x

/-- Compression Sigma-1. -/
def bigSigma1 (x : Nat) : Nat := rotr32 6 x ^^^ rotr32 11 x ^^^ rotr32 25 x

/-- Fold four big-endian bytes into 32-bit words. -/
def bytesToWords : List Nat → List Nat
  | b0 :: b1 :: b2 :: b3 :: rest =>
      (((b0 * 256 + b1) * 256 + b2) * 256 + b3) :: bytesToWords rest
  | _ => []

/-- Big-endian byte expansion of `n` into exactly `k` bytes. -/
def natToBytesBE : Nat → Nat → List Nat
  | 0, _ => []
  | k + 1, n => natToBytesBE k (n / 256) ++ [n % 256]

/-- Extend the message schedule by `k` words; `r` holds the schedule so far,
most recent word first. -/
def extendW : Nat → List Nat → List Nat
  | 0, r => r
  | k + 1, r =>
      extendW k
        (((sigma1 (r.getD 1 0) + r.getD 6 0 + sigma0 (r.getD 14 0) + r.getD 15 0)
            % 2 ^ 32) :: r)

/-- One SHA-256 round: `st` is the working state `[a,b,c,d,e,f,g,h]`;
`wk` is the pair of the schedule word and round constant. -/
def compressStep (st : List Nat) (wk : Nat × Nat) : List Nat :=
  match st with
  | [a, b, c, d, e, f, g, h] =>
      let ch := (e &&& f) ^^^ ((e ^^^ 0xffffffff) &&& g)
      let maj := (a &&& b) ^^^ (a &&& c) ^^^ (b &&& c)
      let t1 := (h + bigSigma1 e + ch + wk.1 + wk.2) % 2 ^ 32
      let t2 := (bigSigma0 a + maj) % 2 ^ 32
      [(t1 + t2) % 2 ^ 32, a, b, c, (d + t1) % 2 ^ 32, e, f, g]
  | st => st

/-- Process one padded 64-byte block into the running hash state. -/
def processBlock (h : List Nat) (block : List Nat) : List Nat :=
  let ws16 := bytesToWords block
  let w := (extendW 48 ws16.reverse).reverse
  let st := (w.zip shaK).foldl compressStep h
  (h.zip st).map (fun p => (p.1 + p.2) % 2 ^ 32)

/-- SHA-256 padding: append `0x80`, zeros to 56 mod 64, and the 8-byte
big-endian bit length. -/
def padMessage (msg : List Nat) : List Nat :=
  msg ++ [0x80] ++ List.replicate ((119 - msg.length % 64) % 64) 0
      ++ natToBytesBE 8 (8 * msg.length)

/-- Structural worker for `chunksOf`; `fuel ≥ l.length` always suffices for
`sz ≥ 1`, and the callers pass `fuel = l.length`. -/
def chunksOfAux (sz : Nat) : Nat → List α → List (List α)
  | _, [] => []
  | 0, _ :: _ => []
  | fuel + 1, a :: rest =>
      (a :: rest).take sz :: chunksOfAux sz fuel ((a :: rest).drop sz)

/-- Split a list into consecutive pieces of `sz ≥ 1` elements (the last piece
may be shorter); an empty list gives no pieces. -/
def chunksOf (sz : Nat) (l : List α) : List (List α) :=
  chunksOfAux sz l.length l

/-- SHA-256 of a byte list, as its 32 digest bytes. -/
def sha256 (msg : List Nat) : List Nat :=
  let hs := (chunksOf 64 (padMessage msg)).foldl processBlock shaH0
  (hs.map (natToBytesBE 4)).flatten

/-- The lowercase hex character for a value `< 16`. -/
def hexDigitChar (n : Nat) : Char :=
  if n < 10 then Char.ofNat (48 + n) else Char.ofNat (87 + n)

/-- Lowercase hex encoding of a byte list. -/
def hexEncode (bs : List Nat) : List Char :=
  (bs.map (fun b => [hexDigitChar (b / 16), hexDigitChar (b % 16)])).flatten

/-! ## Tree hash (`utils.ComputeTreeHash`) -/

/-- One combining level of the tree hash: adjacent digest pairs are
concatenated and rehashed, an unpaired trailing digest passes through. -/
def combineLevel : List (List Nat) → List (List Nat)
  | a :: b :: rest => sha256 (a ++ b) :: combineLevel rest
  | l => l

/-- Structural worker for `combineAll`; `fuel ≥ l.length` always suffices
since each level at least halves the number of digests. -/
def combineAllAux : Nat → List (List Nat) → Option (List Nat)
  | _, [] => none
  | _, [d] => some d
  | 0, _ :: _ :: _ => none
  | fuel + 1, a :: b :: rest => combineAllAux fuel (combineLevel (a :: b :: rest))

/-- Combine digest levels until one digest remains; no digests give none. -/
def combineAll (l : List (List Nat)) : Option (List Nat) :=
  combineAllAux l.length l

/-- Embeds `utils.ComputeTreeHash`: the hex-encoded tree hash of a byte stream —
1 MiB chunks are leaf-hashed with SHA-256 and combined pairwise; an empty
stream gives `none`. The repository delegates the digest computation to the
Glacier SDK's `ComputeHashes`; that algorithm is embedded here directly. -/
def ComputeTreeHash (s : List Nat) : Option (List Char) :=
  (combineAll ((chunksOf 1048576 s).map sha256)).map hexEncode

/-! ## Range model (`utils.Range`, `Range.String`, `utils.RangeFromString`)

Go strings are `List Char`; `strconv.ParseInt(_, 10, 64)` and
`strings.Split(_, "-")` are embedded below. All `int64` arithmetic of the
source that can overflow goes through `wrap64`. -/

/-- A byte range of the archive: `utils.Range` with `int64` fields. -/
structure Range where
  offset : Int
  limit : Int
deriving DecidableEq

/-- The decimal digit character for `n < 10`. -/
def digitChar (n : Nat) : Char := Char.ofNat (48 + n)

/-- Structural worker for `natDigits`; any `fuel > n` gives the digits. -/
def natDigitsAux : Nat → Nat → List Char
  | 0, _ => []
  | fuel + 1, n =>
      if n < 10 then [digitChar n]
      else natDigitsAux fuel (n / 10) ++ [digitChar (n % 10)]

/-- The decimal digit characters of a natural number, most significant
first. -/
def natDigits (n : Nat) : List Char := natDigitsAux (n + 1) n

/-- Decimal rendering of an `int64` value, as Go's `fmt`/`strconv` print
it. -/
def intToChars (i : Int) : List Char :=
  if i < 0 then '-' :: natDigits (-i).toNat else natDigits i.toNat

/-- Embeds `Range.String`: Go renders `fmt.Sprint(r.Offset, "-", r.Offset+r.Limit-1)`
— the inclusive endpoint is computed in `int64`, hence wrapped. -/
def Range.string (r : Range) : List Char :=
  intToChars r.offset ++ '-' :: intToChars (wrap64 (r.offset + r.limit - 1))

/-- Whether a character is an ASCII decimal digit. -/
def isDigitChar (c : Char) : Bool := 48 ≤ c.toNat && c.toNat ≤ 57

/-- The value of a decimal digit string (exact, unbounded). -/
def digitsVal (s : List Char) : Nat :=
  s.foldl (fun acc c => acc * 10 + (c.toNat - 48)) 0

/-- Parse a nonempty all-digit string to its exact value, as Go's
`strconv.ParseUint` before its range check. -/
def parseNatDigits (s : List Char) : Option Nat :=
  if s = [] then none
  else if s.all isDigitChar then some (digitsVal s) else none

/-- Embeds `strconv.ParseInt(s, 10, 64)`: optional sign, nonempty digits, and the
value must fit in `int64` (on overflow Go returns an error, which the caller
treats as parse failure). -/
def parseInt64 (s : List Char) : Option Int :=
  match s with
  | [] => none
  | c :: rest =>
      if c = '+' then
        match parseNatDigits rest with
        | some n => if n ≤ 2 ^ 63 - 1 then some (n : Int) else none
        | none => none
      else if c = '-' then
        match parseNatDigits rest with
        | some n => if n ≤ 2 ^ 63 then some (-(n : Int)) else none
        | none => none
      else
        match parseNatDigits (c :: rest) with
        | some n => if n ≤ 2 ^ 63 - 1 then some (n : Int) else none
        | none => none

/-- Embeds `strings.Split(s, "-")`: the pieces of `s` between the dashes (an empty
string gives one empty piece). -/
def splitOnDash : List Char → List (List Char)
  | [] => [[]]
  | c :: rest =>
      if c = '-' then [] :: splitOnDash rest
      else
        match splitOnDash rest with
        | [] => [[c]]
        | g :: gs => (c :: g) :: gs

/-- Embeds `utils.RangeFromString`: split on `-`, require exactly two pieces, parse
both as `int64`, compute `end - begin + 1` in `int64`, and reject a
non-positive result. -/
def RangeFromString (s : List Char) : Option Range :=
  match splitOnDash s with
  | [b, e] =>
      match parseInt64 b with
      | none => none
      | some off =>
          match parseInt64 e with
          | none => none
          | some en =>
              let lim := wrap64 (en - off + 1)
              if lim ≤ 0 then none else some ⟨off, lim⟩
  | _ => none

/-! ## Uploader state machine (`uploader.Uploader`) -/

/-- A Go string, as its character sequence. -/
abbrev GoString := List Char

/-- The mutable uploader session state: configured part size, measured file
size, the advancing cursor, the confirmed-uploaded offset set, and the open
source file's bytes. -/
structure UploaderSt where
  partSize : Int
  size : Int
  offset : Int
  uploaded : List Int
  file : List Nat
deriving DecidableEq

/-- The skip loop inside `Uploader.getNextRange`: repeatedly claim the cursor
position and advance the cursor by the part size (`int64`, hence wrapped),
until a position not in the confirmed set is claimed or the cursor passes the
file size. Returns the claimed offset (if any) and the final cursor. The Go
loop has no fuel; it terminates whenever the part size is at least 1 and the
cursor arithmetic does not overflow, and the fuel passed by
`Uploader.getNextRange` suffices for exactly those runs. -/
def upSkipLoop (uploaded : List Int) (partSize size : Int) : Nat → Int → Option Int × Int
  | 0, off => (none, off)
  | fuel + 1, off =>
      if off ≥ size then (none, off)
      else
        let newOff := wrap64 (off + partSize)
        if uploaded.contains off then upSkipLoop uploaded partSize size fuel newOff
        else (some off, newOff)

/-- Embeds `Uploader.getNextRange`: claim the next unconfirmed offset, truncating the
final part to the remaining bytes (all `int64` arithmetic wrapped). -/
def Uploader.getNextRange (s : UploaderSt) : Option Range × UploaderSt :=
  match upSkipLoop s.uploaded s.partSize s.size ((s.size - s.offset).toNat + 1) s.offset with
  | (none, off) => (none, { s with offset := off })
  | (some o, off) =>
      let lim := if wrap64 (o + s.partSize) > s.size then wrap64 (s.size - o) else s.partSize
      (some ⟨o, lim⟩, { s with offset := off })

/-- The sequence of ranges the upload dispatch loop feeds to the workers:
`getNextRange` until it yields nothing. `fuel` bounds the number of
iterations; any `fuel ≥` the number of parts gives the whole run. -/
def Uploader.dispatchRanges (s : UploaderSt) : Nat → List Range × UploaderSt
  | 0 => ([], s)
  | fuel + 1 =>
      match Uploader.getNextRange s with
      | (none, s') => ([], s')
      | (some r, s') =>
          let (rs, s'') := Uploader.dispatchRanges s' fuel
          (r :: rs, s'')

/-- The bytes an `io.NewSectionReader(file, off, lim)` yields: the file's
bytes from `off`, at most `lim` of them, ending early at end of file. -/
def sectionBytes (file : List Nat) (off lim : Int) : List Nat :=
  (file.drop off.toNat).take lim.toNat

/-- One element of the remote part listing: its advertised byte-range text
and its recorded tree hash (a nullable pointer in the source). -/
structure PartListElement where
  rangeInBytes : GoString
  sha256TreeHash : Option GoString
deriving DecidableEq

/-- Embeds `Uploader.checkPart`: parse the advertised range, require its offset
below the local file size, recompute the local tree hash over that byte
range, and compare with the remote-recorded hash, marking the offset
confirmed on a match. Result: `none` models a Go nil-pointer dereference
panic (the remote hash is dereferenced without a nil check); otherwise
`(ok, error)` as returned, with the possibly-updated state. -/
def Uploader.checkPart (s : UploaderSt) (p : PartListElement) :
    Option ((Bool × Option GoString) × UploaderSt) :=
  match RangeFromString p.rangeInBytes with
  | none => some ((false, some ("part (".data ++ p.rangeInBytes ++ ") range is invalid".data)), s)
  | some pr =>
      if pr.offset ≥ s.size then some ((false, some "file size mismatch".data), s)
      else
        match ComputeTreeHash (sectionBytes s.file pr.offset pr.limit) with
        | none =>
            some ((false, some ("could not compute hashes of part (".data ++ p.rangeInBytes
                ++ ")".data)), s)
        | some th =>
            match p.sha256TreeHash with
            | none => none
            | some remote =>
                if th = remote then
                  some ((true, none), { s with uploaded := pr.offset :: s.uploaded })
                else some ((false, none), s)

/-- Fold `checkPart` over one listing page, aborting on a returned error and
propagating a panic. -/
def checkParts (s : UploaderSt) : List PartListElement → Option (Except GoString UploaderSt)
  | [] => some (Except.ok s)
  | p :: ps =>
      match Uploader.checkPart s p with
      | none => none
      | some ((_, some e), _) => some (Except.error e)
      | some ((_, none), s') => checkParts s' ps

/-- One page of the remote part listing: the part size the remote service
declares for the session (always present in a listing response) and the
listed parts of this page. -/
structure UploadPage where
  partSizeInBytes : Int
  parts : List PartListElement
deriving DecidableEq

/-- The page loop of `checkUploadedParts`: each page's declared part size is
checked against the configured one before the page's parts are checked. -/
def checkPages (s : UploaderSt) :
    List UploadPage → Option (Except GoString UploaderSt)
  | [] => some (Except.ok s)
  | page :: rest =>
      if page.partSizeInBytes ≠ s.partSize then
        some (Except.error "part size mismatch".data)
      else
        match checkParts s page.parts with
        | none => none
        | some (Except.error e) => some (Except.error e)
        | some (Except.ok s') => checkPages s' rest

/-- The abstract remote-service responses an upload run consumes, plus the
caller input: the source file's bytes (`none` when the open step fails), the
supplied session id (empty means initiate a new one), the initiate response,
the paged part listing with its terminal pager error, per-part upload
transport results, and the completion response. -/
structure UploadEnv where
  fileContent : Option (List Nat)
  uploadId : GoString
  initiateResult : Except GoString GoString
  pages : List UploadPage
  listErr : Option GoString
  uploadPartErr : Range → Option GoString
  completeResult : Except GoString GoString

/-- A remote request the upload run issues, in order of issue. -/
inductive UploadEvent
  | initiate
  | uploadPart (r : Range) (checksum : GoString)
  | complete (checksum : GoString) (size : Int)
deriving DecidableEq

/-- Embeds `Uploader.checkUploadedParts`: page through the remote listing, checking
the declared part size and every listed part; the pager's terminal error is
checked after the pages. `none` models a panic inside `checkPart`. -/
def Uploader.checkUploadedParts (env : UploadEnv) (s : UploaderSt) :
    Option (Except GoString UploaderSt) :=
  match checkPages s env.pages with
  | none => none
  | some (Except.error e) => some (Except.error e)
  | some (Except.ok s') =>
      match env.listErr with
      | some e => some (Except.error e)
      | none => some (Except.ok s')

/-- Embeds `Uploader.uploadPart`: hash the part's bytes (failing without a request
when the section is empty), then issue the upload request tagged with the
checksum; the transport's verdict comes from the environment. Returns the
error to log, and the requests issued. -/
def Uploader.uploadPart (env : UploadEnv) (s : UploaderSt) (r : Range) :
    Option GoString × List UploadEvent :=
  match ComputeTreeHash (sectionBytes s.file r.offset r.limit) with
  | none => (some "could not compute hashes".data, [])
  | some th => (env.uploadPartErr r, [UploadEvent.uploadPart r th])

/-- The upload dispatch loop: feed every range the cursor yields to
`uploadPart`; a failing part is logged and the loop continues. Returns the
final state and the requests issued. `fuel` bounds the iterations as in
`dispatchRanges`. -/
def Uploader.multipartUpload (env : UploadEnv) (s : UploaderSt) :
    Nat → UploaderSt × List UploadEvent
  | 0 => (s, [])
  | fuel + 1 =>
      match Uploader.getNextRange s with
      | (none, s') => (s', [])
      | (some r, s') =>
          let (_, evs) := Uploader.uploadPart env s' r
          let (sF, rest) := Uploader.multipartUpload env s' fuel
          (sF, evs ++ rest)

/-- Embeds `Uploader.Upload`: open the file, initiate or resume the session,
reconcile the already-uploaded parts, dispatch the remaining ranges, and
complete with the whole-file hash. First error aborts, except per-part
dispatch failures. `none` models a reconciliation panic. Returns the run's
verdict and the requests issued, in order. -/
def Uploader.Upload (env : UploadEnv) (partSize : Int) (fuel : Nat) :
    Option (Except GoString Unit × List UploadEvent) :=
  match env.fileContent with
  | none => some (Except.error "could not open the file".data, [])
  | some content =>
      let s0 : UploaderSt := ⟨partSize, content.length, 0, [], content⟩
      let initEvs := if env.uploadId = [] then [UploadEvent.initiate] else []
      let initErr : Option GoString :=
        if env.uploadId = [] then
          match env.initiateResult with
          | Except.error e => some e
          | Except.ok _ => none
        else none
      match initErr with
      | some e => some (Except.error e, initEvs)
      | none =>
          match Uploader.checkUploadedParts env s0 with
          | none => none
          | some (Except.error e) => some (Except.error e, initEvs)
          | some (Except.ok s1) =>
              let (s2, evs) := Uploader.multipartUpload env s1 fuel
              match ComputeTreeHash s2.file with
              | none => some (Except.error "could not compute hashes".data, initEvs ++ evs)
              | some th =>
                  match env.completeResult with
                  | Except.error e =>
                      some (Except.error e,
                        initEvs ++ evs ++ [UploadEvent.complete th s2.size])
                  | Except.ok _ =>
                      some (Except.ok (),
                        initEvs ++ evs ++ [UploadEvent.complete th s2.size])

/-! ## Downloader state machine (`downloader.Downloader`) -/

/-- The mutable downloader session state: configured part size, archive size
and expected whole-archive hash (populated by job validation), the advancing
cursor, and the output file's bytes. -/
structure DownloaderSt where
  partSize : Int
  size : Int
  offset : Int
  treeHash : Option GoString
  file : List Nat
deriving DecidableEq

/-- Embeds `Downloader.getNextRange`: claim the cursor position and advance by the
part size, truncating the final part (all `int64` arithmetic wrapped). -/
def Downloader.getNextRange (d : DownloaderSt) : Option Range × DownloaderSt :=
  if d.offset ≥ d.size then (none, d)
  else
    let o := d.offset
    let d' := { d with offset := wrap64 (d.offset + d.partSize) }
    let lim := if wrap64 (o + d.partSize) > d.size then wrap64 (d.size - o) else d.partSize
    (some ⟨o, lim⟩, d')

/-- The sequence of ranges the download dispatch loop feeds to the workers. -/
def Downloader.dispatchRanges (d : DownloaderSt) : Nat → List Range × DownloaderSt
  | 0 => ([], d)
  | fuel + 1 =>
      match Downloader.getNextRange d with
      | (none, d') => ([], d')
      | (some r, d') =>
          let (rs, d'') := Downloader.dispatchRanges d' fuel
          (r :: rs, d'')

/-- A retrieval job description as `describeJob` returns it; the nullable
response pointers are options. -/
structure JobDesc where
  action : GoString
  statusCode : GoString
  statusMessage : Option GoString
  archiveSizeInBytes : Option Int
  sha256TreeHash : Option GoString
deriving DecidableEq

/-- Embeds `Downloader.checkJob` on a transport-error-free `describeJob` response:
require an archive-retrieval action and a succeeded status (distinguishing
in-progress, failed and unexpected statuses), require the whole-archive tree
hash, and record the archive size and hash. `none` models a Go nil
dereference (of the status message, or of the archive size). -/
def Downloader.checkJob (d : DownloaderSt) (res : JobDesc) :
    Option (Except GoString DownloaderSt) :=
  if res.action ≠ "ArchiveRetrieval".data then
    some (Except.error (res.action ++ " action is not supported".data))
  else if res.statusCode ≠ "Succeeded".data then
    (if res.statusCode = "InProgress".data then
      some (Except.error "the job is not succeeded yet".data)
    else if res.statusCode = "Failed".data then
      match res.statusMessage with
      | none => none
      | some m => some (Except.error ("the job is failed: ".data ++ m))
    else some (Except.error ("job status is unexpected: ".data ++ res.statusCode)))
  else
    match res.sha256TreeHash with
    | none => some (Except.error "the retrieved range must be tree-hash aligned".data)
    | some th =>
        match res.archiveSizeInBytes with
        | none => none
        | some sz => some (Except.ok { d with size := sz, treeHash := some th })

/-- The abstract remote responses a download run consumes, plus the caller
input: the `describeJob` response (or transport error), whether the
destination path already exists, the truncate step's verdict, the per-range
fetch responses (body bytes and optional advertised checksum), and the
configured part size. -/
structure DownloadEnv where
  jobResult : Except GoString JobDesc
  fileExists : Bool
  truncateErr : Option GoString
  fetch : Range → Except GoString (List Nat × Option GoString)
  partSize : Int

/-- Write `body` into `file` at byte offset `off`, as `WriteAt` does. -/
def writeAt (file : List Nat) (off : Int) (body : List Nat) : List Nat :=
  file.take off.toNat ++ body ++ file.drop (off.toNat + body.length)

/-- Embeds `Downloader.downloadPart`: fetch the range, require exactly the requested
byte count, verify the advertised per-part checksum when present, and write
the bytes at the range's offset. Returns the error to log (the write itself
does not fail in this model) and the updated state. -/
def Downloader.downloadPart (env : DownloadEnv) (d : DownloaderSt) (r : Range) :
    Option GoString × DownloaderSt :=
  match env.fetch r with
  | Except.error e => (some e, d)
  | Except.ok (body, ck) =>
      if (body.length : Int) ≠ r.limit then (some "size mismatch".data, d)
      else
        match ck with
        | some remote =>
            match ComputeTreeHash body with
            | none => (some "could not compute hash".data, d)
            | some th =>
                if remote ≠ th then (some "hash mismatch".data, d)
                else (none, { d with file := writeAt d.file r.offset body })
        | none => (none, { d with file := writeAt d.file r.offset body })

/-- The download dispatch loop: feed every range the cursor yields to
`downloadPart`; a failing part is logged and the loop continues. Returns the
final state and the ranges attempted. -/
def Downloader.multipartDownload (env : DownloadEnv) (d : DownloaderSt) :
    Nat → DownloaderSt × List Range
  | 0 => (d, [])
  | fuel + 1 =>
      match Downloader.getNextRange d with
      | (none, d') => (d', [])
      | (some r, d') =>
          let (_, d'') := Downloader.downloadPart env d' r
          let (dF, rs) := Downloader.multipartDownload env d'' fuel
          (dF, r :: rs)

/-- Embeds `Downloader.checkTreeHash`: hash the completed output file and compare it
with the hash recorded by job validation. Returns the error, if any; the
outer `none` models the nil dereference were no hash recorded. -/
def Downloader.checkTreeHash (d : DownloaderSt) : Option (Option GoString) :=
  match ComputeTreeHash d.file with
  | none => some (some "could not compute hash".data)
  | some th =>
      match d.treeHash with
      | none => none
      | some expected =>
          some (if th ≠ expected then some "hash mismatch".data else none)

/-- Embeds `Downloader.Download`: validate the job, create the output file
exclusively, extend it to the archive size, dispatch the ranges, and verify
the whole file. First error aborts, except per-range dispatch failures.
Returns the run's verdict and the ranges attempted. -/
def Downloader.Download (env : DownloadEnv) (fuel : Nat) :
    Option (Except GoString Unit × List Range) :=
  let d0 : DownloaderSt := ⟨env.partSize, 0, 0, none, []⟩
  match env.jobResult with
  | Except.error e => some (Except.error e, [])
  | Except.ok job =>
      match Downloader.checkJob d0 job with
      | none => none
      | some (Except.error e) => some (Except.error e, [])
      | some (Except.ok d1) =>
          if env.fileExists then some (Except.error "the file already exists".data, [])
          else
            match env.truncateErr with
            | some e => some (Except.error e, [])
            | none =>
                let d2 := { d1 with file := List.replicate d1.size.toNat 0 }
                let (d3, attempts) := Downloader.multipartDownload env d2 fuel
                match Downloader.checkTreeHash d3 with
                | none => none
                | some (some e) => some (Except.error e, attempts)
                | some none => some (Except.ok (), attempts)

/-! ## Claim-side and proof-side definitions -/

/-- The claim's failure condition for `RangeFromString`, as stated: not
exactly one separator, a side that is not a (64-bit) non-negative integer, or
an end below the start. -/
def rangeInvalidClaim (s : GoString) : Bool :=
  match splitOnDash s with
  | [b, e] =>
      match parseInt64 b, parseInt64 e with
      | some x, some y => decide (x < 0) || decide (y < 0) || decide (y < x)
      | _, _ => true
  | _ => true

/-- The failure condition for `RangeFromString` as amended: additionally the
computed length `end - start + 1` may overflow `int64` (it then wraps to
`-2^63` and is rejected as non-positive). -/
def rangeInvalidAmended (s : GoString) : Bool :=
  match splitOnDash s with
  | [b, e] =>
      match parseInt64 b, parseInt64 e with
      | some x, some y =>
          decide (x < 0) || decide (y < 0) || decide (y < x) ||
            decide (2 ^ 63 ≤ y - x + 1)
      | _, _ => true
  | _ => true

/-- The expected dispatch run: `n` parts starting at offset `o`, stepping by
`P`, each truncated to the bytes below `S`. -/
def partsFrom (S P : Nat) : Nat → Nat → List Range
  | 0, _ => []
  | n + 1, o =>
      ⟨(o : Int), ((min P (S - o) : Nat) : Int)⟩ :: partsFrom S P n (o + P)

/-- How many parts remain from cursor position `o`: `⌈(S - o) / P⌉`. -/
def partCount (S P o : Nat) : Nat := (S - o + P - 1) / P

/-- The claim's description of job validation, written from its words: fail
naming the action when it is not archive retrieval; a distinct not-yet-ready
error when in progress; surface the remote message when failed; an
unexpected-status error naming any other non-succeeded status; a tree-hash
alignment error when succeeded without a whole-archive hash; on success
record the archive size and expected hash into the state. (The two `none`
branches mirror the dereference of the nullable message and size fields,
which the claim does not reach.) -/
def checkJobClaim (d : DownloaderSt) (res : JobDesc) :
    Option (Except GoString DownloaderSt) :=
  if res.action ≠ "ArchiveRetrieval".data then
    some (Except.error (res.action ++ " action is not supported".data))
  else if res.statusCode = "InProgress".data then
    some (Except.error "the job is not succeeded yet".data)
  else if res.statusCode = "Failed".data then
    match res.statusMessage with
    | some m => some (Except.error ("the job is failed: ".data ++ m))
    | none => none
  else if res.statusCode ≠ "Succeeded".data then
    some (Except.error ("job status is unexpected: ".data ++ res.statusCode))
  else
    match res.sha256TreeHash with
    | none => some (Except.error "the retrieved range must be tree-hash aligned".data)
    | some th =>
        match res.archiveSizeInBytes with
        | some sz => some (Except.ok { d with size := sz, treeHash := some th })
        | none => none

/-! ## C1: tree hash of the empty and of the `"test"` stream -/

theorem combineLevel_length : ∀ l : List (List Nat),
    (combineLevel l).length = (l.length + 1) / 2
  | [] => by simp [combineLevel]
  | [_] => by simp [combineLevel]
  | a :: b :: rest => by
      simp only [combineLevel, List.length_cons, combineLevel_length rest]
      omega

theorem combineAllAux_ne_none :
    ∀ (fuel : Nat) (l : List (List Nat)), l ≠ [] → l.length ≤ fuel + 1 →
      combineAllAux fuel l ≠ none := by
  intro fuel
  induction fuel with
  | zero =>
      intro l hne hlen
      match l, hne, hlen with
      | [d], _, _ => simp [combineAllAux]
      | a :: b :: rest, _, hlen => simp at hlen
  | succ fuel ih =>
      intro l hne hlen
      match l with
      | [d] => simp [combineAllAux]
      | a :: b :: rest =>
          show combineAllAux fuel (combineLevel (a :: b :: rest)) ≠ none
          apply ih
          · have : 0 < (combineLevel (a :: b :: rest)).length := by
              rw [combineLevel_length]; simp; omega
            exact List.ne_nil_of_length_pos this
          · rw [combineLevel_length]
            simp only [List.length_cons] at hlen ⊢
            omega

theorem combineAll_ne_none {l : List (List Nat)} (h : l ≠ []) : combineAll l ≠ none :=
  combineAllAux_ne_none l.length l h (by omega)

/-- C1: `ComputeTreeHash` yields nothing exactly on the empty stream; every
non-empty stream yields the hex encoding of the hierarchical digest, and the
4-byte ASCII stream `"test"` yields exactly
`9f86d081884c7d659a2feaa0c55ad015a3bf4f1b2b0b822cd15d6c15b0f00a08`. -/
theorem computeTreeHash_c1 :
    (∀ s : List Nat, ComputeTreeHash s = none ↔ s = []) ∧
    (∀ s : List Nat, s ≠ [] →
      ∃ d, combineAll ((chunksOf 1048576 s).map sha256) = some d ∧
        ComputeTreeHash s = some (hexEncode d)) ∧
    ComputeTreeHash [0x74, 0x65, 0x73, 0x74] =
      some "9f86d081884c7d659a2feaa0c55ad015a3bf4f1b2b0b822cd15d6c15b0f00a08".data := by
  have key : ∀ s : List Nat, s ≠ [] →
      ∃ d, combineAll ((chunksOf 1048576 s).map sha256) = some d := by
    intro s hs
    have hne : (chunksOf 1048576 s).map sha256 ≠ [] := by
      match s, hs with
      | a :: rest, _ => simp [chunksOf, chunksOfAux]
    rcases hopt : combineAll ((chunksOf 1048576 s).map sha256) with _ | d
    · exact absurd hopt (combineAll_ne_none hne)
    · exact ⟨d, rfl⟩
  refine ⟨?_, ?_, by decide⟩
  · intro s
    constructor
    · intro h
      by_contra hs
      obtain ⟨d, hd⟩ := key s hs
      rw [ComputeTreeHash, hd] at h
      simp at h
    · rintro rfl
      rfl
  · intro s hs
    obtain ⟨d, hd⟩ := key s hs
    exact ⟨d, hd, by rw [ComputeTreeHash, hd]; rfl⟩

theorem computeTreeHash_c1_witness :
    ([0x61] : List Nat) ≠ [] ∧
    ∃ d, combineAll ((chunksOf 1048576 [0x61]).map sha256) = some d ∧
      ComputeTreeHash [0x61] = some (hexEncode d) :=
  ⟨by decide, computeTreeHash_c1.2.1 [0x61] (by decide)⟩

/-! ## Decimal rendering and parsing lemmas -/

theorem digitChar_toNat {k : Nat} (h : k < 10) : (digitChar k).toNat = 48 + k := by
  interval_cases k <;> decide

theorem isDigitChar_digitChar {k : Nat} (h : k < 10) : isDigitChar (digitChar k) = true := by
  interval_cases k <;> decide

theorem digitChar_ne_dash {k : Nat} (h : k < 10) : digitChar k ≠ '-' := by
  interval_cases k <;> decide

theorem digitsVal_append_one (u : List Char) (c : Char) :
    digitsVal (u ++ [c]) = digitsVal u * 10 + (c.toNat - 48) := by
  simp [digitsVal, List.foldl_append]

theorem natDigitsAux_spec :
    ∀ (fuel n : Nat), n < fuel →
      natDigitsAux fuel n ≠ [] ∧
      (∀ c ∈ natDigitsAux fuel n, isDigitChar c = true) ∧
      digitsVal (natDigitsAux fuel n) = n := by
  intro fuel
  induction fuel with
  | zero => intro n h; omega
  | succ fuel ih =>
      intro n h
      by_cases h10 : n < 10
      · refine ⟨by simp [natDigitsAux, h10], ?_, ?_⟩
        · intro c hc
          simp [natDigitsAux, h10] at hc
          subst hc
          exact isDigitChar_digitChar h10
        · simp [natDigitsAux, h10, digitsVal, digitChar_toNat h10]
      · have hdiv : n / 10 < fuel := by
          have := Nat.div_lt_self (by omega : 0 < n) (by omega : 1 < 10)
          omega
        obtain ⟨hne, hdig, hval⟩ := ih (n / 10) hdiv
        rw [show natDigitsAux (fuel + 1) n
            = natDigitsAux fuel (n / 10) ++ [digitChar (n % 10)] by
          simp [natDigitsAux, h10]]
        refine ⟨by simp, ?_, ?_⟩
        · intro c hc
          rcases List.mem_append.mp hc with hm | hm
          · exact hdig c hm
          · simp at hm
            subst hm
            exact isDigitChar_digitChar (Nat.mod_lt _ (by omega))
        · rw [digitsVal_append_one, hval, digitChar_toNat (Nat.mod_lt _ (by omega))]
          omega

theorem natDigits_ne_nil (n : Nat) : natDigits n ≠ [] :=
  (natDigitsAux_spec (n + 1) n (by omega)).1

theorem natDigits_all_digit (n : Nat) : ∀ c ∈ natDigits n, isDigitChar c = true :=
  (natDigitsAux_spec (n + 1) n (by omega)).2.1

theorem digitsVal_natDigits (n : Nat) : digitsVal (natDigits n) = n :=
  (natDigitsAux_spec (n + 1) n (by omega)).2.2

theorem isDigitChar_ne_dash {c : Char} (h : isDigitChar c = true) : c ≠ '-' := by
  intro hc
  subst hc
  simp [isDigitChar] at h

theorem isDigitChar_ne_plus {c : Char} (h : isDigitChar c = true) : c ≠ '+' := by
  intro hc
  subst hc
  simp [isDigitChar] at h

theorem parseNatDigits_natDigits (n : Nat) : parseNatDigits (natDigits n) = some n := by
  rw [parseNatDigits, if_neg (natDigits_ne_nil n),
    if_pos (List.all_eq_true.mpr (natDigits_all_digit n)), digitsVal_natDigits]

theorem parseInt64_natDigits {n : Nat} (h : n ≤ 2 ^ 63 - 1) :
    parseInt64 (natDigits n) = some (n : Int) := by
  rcases hd : natDigits n with _ | ⟨c, cs⟩
  · exact absurd hd (natDigits_ne_nil n)
  · have hdig : isDigitChar c = true := natDigits_all_digit n c (by rw [hd]; simp)
    rw [parseInt64, if_neg (isDigitChar_ne_plus hdig), if_neg (isDigitChar_ne_dash hdig),
      ← hd, parseNatDigits_natDigits]
    simp
    omega

/-! ## `strings.Split` lemmas -/

theorem splitOnDash_ne_nil (s : List Char) : splitOnDash s ≠ [] := by
  match s with
  | [] => simp [splitOnDash]
  | c :: rest =>
      rw [splitOnDash]
      split
      · simp
      · rcases h : splitOnDash rest with _ | ⟨g, gs⟩ <;> simp

theorem splitOnDash_of_no_dash :
    ∀ s : List Char, (∀ c ∈ s, c ≠ '-') → splitOnDash s = [s] := by
  intro s
  induction s with
  | nil => intro _; rfl
  | cons c rest ih =>
      intro h
      rw [splitOnDash, if_neg (h c (by simp)), ih (fun x hx => h x (by simp [hx]))]

theorem splitOnDash_append :
    ∀ u v : List Char, (∀ c ∈ u, c ≠ '-') →
      splitOnDash (u ++ '-' :: v) = u :: splitOnDash v := by
  intro u v
  induction u with
  | nil => intro _; simp [splitOnDash]
  | cons c u' ih =>
      intro h
      rw [List.cons_append, splitOnDash, if_neg (h c (by simp)),
        ih (fun x hx => h x (by simp [hx]))]

theorem mem_splitOnDash_no_dash :
    ∀ (s g : List Char), g ∈ splitOnDash s → ∀ c ∈ g, c ≠ '-' := by
  intro s
  induction s with
  | nil =>
      intro g hg
      simp [splitOnDash] at hg
      subst hg
      simp
  | cons c rest ih =>
      intro g hg
      rw [splitOnDash] at hg
      by_cases hc : c = '-'
      · rw [if_pos hc] at hg
        rcases List.mem_cons.mp hg with rfl | hm
        · simp
        · exact ih g hm
      · rw [if_neg hc] at hg
        rcases h : splitOnDash rest with _ | ⟨g₀, gs⟩
        · exact absurd h (splitOnDash_ne_nil rest)
        · rw [h] at hg
          rcases List.mem_cons.mp hg with rfl | hm
          · intro x hx
            rcases List.mem_cons.mp hx with rfl | hx'
            · exact hc
            · exact ih g₀ (by rw [h]; simp) x hx'
          · exact ih g (by rw [h]; simp [hm])

theorem parseInt64_of_no_dash {g : List Char} (hnd : ∀ c ∈ g, c ≠ '-')
    {x : Int} (h : parseInt64 g = some x) : 0 ≤ x ∧ x ≤ 2 ^ 63 - 1 := by
  match g with
  | [] => simp [parseInt64] at h
  | c :: rest =>
      rw [parseInt64] at h
      by_cases hp : c = '+'
      · rw [if_pos hp] at h
        rcases hn : parseNatDigits rest with _ | n <;> rw [hn] at h
        · simp at h
        · simp at h
          exact ⟨by omega, by omega⟩
      · rw [if_neg hp] at h
        have hm : c ≠ '-' := hnd c (by simp)
        rw [if_neg hm] at h
        rcases hn : parseNatDigits (c :: rest) with _ | n <;> rw [hn] at h
        · simp at h
        · simp at h
          exact ⟨by omega, by omega⟩

/-! ## Int64 wrap lemmas -/

theorem wrap64_eq_self {x : Int} (h1 : -(2 ^ 63) ≤ x) (h2 : x < 2 ^ 63) :
    wrap64 x = x := by
  unfold wrap64
  omega

/-! ## C2: `parse ∘ format` round trip -/

/-- C2 (amended): formatting then parsing returns the same range for every
range with a non-negative offset and a length of at least 1, provided the
inclusive endpoint `offset + limit - 1` fits in `int64` (when it does not,
its `int64` computation wraps to a negative value whose rendering makes the
text unparseable — see the counterexample). -/
theorem range_roundtrip_c2 (r : Range) (h0 : 0 ≤ r.offset) (h1 : 1 ≤ r.limit)
    (h2 : r.limit < 2 ^ 63) (h3 : r.offset + r.limit ≤ 2 ^ 63) :
    RangeFromString (Range.string r) = some r := by
  have hw : wrap64 (r.offset + r.limit - 1) = r.offset + r.limit - 1 :=
    wrap64_eq_self (by omega) (by omega)
  have hoff : intToChars r.offset = natDigits r.offset.toNat := by
    rw [intToChars, if_neg (by omega)]
  have hend : intToChars (wrap64 (r.offset + r.limit - 1))
      = natDigits (r.offset + r.limit - 1).toNat := by
    rw [hw, intToChars, if_neg (by omega)]
  have hsplit : splitOnDash (Range.string r)
      = [natDigits r.offset.toNat, natDigits (r.offset + r.limit - 1).toNat] := by
    rw [Range.string, hoff, hend,
      splitOnDash_append _ _
        (fun c hc => isDigitChar_ne_dash (natDigits_all_digit _ c hc)),
      splitOnDash_of_no_dash _
        (fun c hc => isDigitChar_ne_dash (natDigits_all_digit _ c hc))]
  have hpa : parseInt64 (natDigits r.offset.toNat) = some r.offset := by
    rw [parseInt64_natDigits (by omega), Int.toNat_of_nonneg h0]
  have hpb : parseInt64 (natDigits (r.offset + r.limit - 1).toNat)
      = some (r.offset + r.limit - 1) := by
    rw [parseInt64_natDigits (by omega), Int.toNat_of_nonneg (by omega)]
  unfold RangeFromString
  rw [hsplit]
  simp only [hpa, hpb]
  have hlim : wrap64 (r.offset + r.limit - 1 - r.offset + 1) = r.limit := by
    rw [show r.offset + r.limit - 1 - r.offset + 1 = r.limit by ring]
    exact wrap64_eq_self (by omega) h2
  rw [hlim, if_neg (by omega)]

/-- C2 counterexample: the range `{offset 2^63 - 1, length 2}` has a
non-negative offset and length ≥ 1, yet formatting and re-parsing it does not
return it — its inclusive endpoint wraps to `-2^63`, so the rendered text
holds a second dash and fails to parse. -/
theorem range_roundtrip_c2_counterexample :
    0 ≤ (Range.mk (2 ^ 63 - 1) 2).offset ∧ 1 ≤ (Range.mk (2 ^ 63 - 1) 2).limit ∧
    RangeFromString (Range.string (Range.mk (2 ^ 63 - 1) 2)) = none := by
  refine ⟨by decide, by decide, by decide⟩

theorem range_roundtrip_c2_witness :
    RangeFromString (Range.string (Range.mk 3 5)) = some (Range.mk 3 5) :=
  range_roundtrip_c2 (Range.mk 3 5) (by decide) (by decide) (by decide) (by decide)

/-! ## C8: exactly when parsing fails -/

/-- C8 (amended): `RangeFromString` returns no value exactly when the input
does not hold exactly one separator, a side does not parse as a non-negative
64-bit integer, the end is below the start, or the computed length
`end - start + 1` overflows `int64`; and the claim's concrete examples. -/
theorem rangeFromString_c8 :
    (∀ s : GoString, RangeFromString s = none ↔ rangeInvalidAmended s = true) ∧
    RangeFromString "".data = none ∧
    RangeFromString "abc".data = none ∧
    RangeFromString "0-1-2".data = none ∧
    RangeFromString "x-0".data = none ∧
    RangeFromString "0-x".data = none ∧
    RangeFromString "1-0".data = none ∧
    RangeFromString "0-0".data = some (Range.mk 0 1) ∧
    RangeFromString "0-1".data = some (Range.mk 0 2) := by
  refine ⟨?_, by decide, by decide, by decide, by decide, by decide, by decide,
    by decide, by decide⟩
  intro s
  rcases hsp : splitOnDash s with _ | ⟨b, tl⟩
  · exact absurd hsp (splitOnDash_ne_nil s)
  · rcases tl with _ | ⟨e, tl2⟩
    · simp [RangeFromString, rangeInvalidAmended, hsp]
    · rcases tl2 with _ | ⟨g, tl3⟩
      · have hb := mem_splitOnDash_no_dash s b (by rw [hsp]; simp)
        have he := mem_splitOnDash_no_dash s e (by rw [hsp]; simp)
        simp only [RangeFromString, rangeInvalidAmended, hsp]
        rcases hx : parseInt64 b with _ | x
        · simp
        · rcases hy : parseInt64 e with _ | y
          · simp
          · obtain ⟨hx0, hx1⟩ := parseInt64_of_no_dash hb hx
            obtain ⟨hy0, hy1⟩ := parseInt64_of_no_dash he hy
            simp only []
            by_cases hov : y - x + 1 = 2 ^ 63
            · have hwov : wrap64 (y - x + 1) = -(2 ^ 63) := by
                rw [hov]; unfold wrap64; decide
              rw [hwov, if_pos (by omega)]
              simp
              omega
            · rw [wrap64_eq_self (by omega) (by omega)]
              by_cases hle : y - x + 1 ≤ 0
              · rw [if_pos hle]
                simp
                omega
              · rw [if_neg hle]
                simp
                omega
      · simp [RangeFromString, rangeInvalidAmended, hsp]

/-- C8 counterexample: for the input `"0-9223372036854775807"` both sides
parse as non-negative 64-bit integers, there is exactly one separator, and
the end is not below the start — yet `RangeFromString` returns no value,
because the computed length `2^63` wraps to a negative `int64`. -/
theorem rangeFromString_c8_counterexample :
    RangeFromString "0-9223372036854775807".data = none ∧
    rangeInvalidClaim "0-9223372036854775807".data = false := by
  refine ⟨by decide, by decide⟩

/-! ## C3: the sequence of dispatched ranges -/

theorem partCount_of_ge {S P o : Nat} (hP : 1 ≤ P) (h : S ≤ o) :
    partCount S P o = 0 := by
  rw [partCount, show S - o + P - 1 = P - 1 by omega]
  exact Nat.div_eq_of_lt (by omega)

theorem partCount_step {S P o : Nat} (hP : 1 ≤ P) (h : o < S) :
    partCount S P o = partCount S P (o + P) + 1 := by
  rw [partCount, show S - o + P - 1 = (S - o - 1) + P by omega,
    Nat.add_div_right _ (by omega), partCount]
  rcases le_or_lt (S - o) P with hc | hc
  · rw [show S - (o + P) + P - 1 = P - 1 by omega,
      Nat.div_eq_of_lt (by omega : S - o - 1 < P), Nat.div_eq_of_lt (by omega)]
  · rw [show S - (o + P) + P - 1 = S - o - 1 by omega]

theorem down_getNextRange_lt {P S o : Nat} (hP : 1 ≤ P) (hB : S + P ≤ 2 ^ 63) (ho : o < S)
    (th : Option GoString) (f : List Nat) :
    Downloader.getNextRange ⟨(P : Int), (S : Int), (o : Int), th, f⟩
      = (some ⟨(o : Int), ((min P (S - o) : Nat) : Int)⟩,
         ⟨(P : Int), (S : Int), ((o + P : Nat) : Int), th, f⟩) := by
  unfold Downloader.getNextRange
  rw [if_neg (by push_cast; omega)]
  have hw1 : wrap64 ((o : Int) + (P : Int)) = ((o + P : Nat) : Int) := by
    push_cast
    exact wrap64_eq_self (by omega) (by omega)
  have hw2 : wrap64 ((S : Int) - (o : Int)) = (S : Int) - (o : Int) :=
    wrap64_eq_self (by omega) (by omega)
  simp only [hw1, hw2]
  have hlim : (if ((o + P : Nat) : Int) > (S : Int) then (S : Int) - (o : Int)
      else (P : Int)) = ((min P (S - o) : Nat) : Int) := by
    split <;> push_cast <;> omega
  rw [hlim]

theorem down_getNextRange_ge {P S o : Int} (ho : S ≤ o)
    (th : Option GoString) (f : List Nat) :
    Downloader.getNextRange ⟨P, S, o, th, f⟩ = (none, ⟨P, S, o, th, f⟩) := by
  unfold Downloader.getNextRange
  dsimp only
  rw [if_pos ho]

theorem down_dispatch_succ (d : DownloaderSt) (fuel : Nat) :
    (Downloader.dispatchRanges d (fuel + 1)).1
      = match Downloader.getNextRange d with
        | (none, _) => []
        | (some r, d') => r :: (Downloader.dispatchRanges d' fuel).1 := by
  rcases h : Downloader.getNextRange d with ⟨a, d'⟩
  rcases a with _ | r <;> simp [Downloader.dispatchRanges, h]

theorem down_dispatch_eq (S P : Nat) (hP : 1 ≤ P) (hB : S + P ≤ 2 ^ 63)
    (th : Option GoString) (f : List Nat) :
    ∀ fuel o, partCount S P o ≤ fuel →
      (Downloader.dispatchRanges ⟨(P : Int), (S : Int), (o : Int), th, f⟩ fuel).1
        = partsFrom S P (partCount S P o) o := by
  intro fuel
  induction fuel with
  | zero =>
      intro o h
      rw [Nat.le_zero.mp h]
      rfl
  | succ fuel ih =>
      intro o h
      by_cases ho : o < S
      · rw [down_dispatch_succ, down_getNextRange_lt hP hB ho th f]
        have hstep := partCount_step hP ho
        rw [hstep, partsFrom]
        exact congrArg _ (ih (o + P) (by omega))
      · rw [down_dispatch_succ,
          down_getNextRange_ge (by omega) th f,
          partCount_of_ge hP (by omega)]
        rfl

theorem partsFrom_length (S P : Nat) : ∀ n o, (partsFrom S P n o).length = n := by
  intro n
  induction n with
  | zero => intro o; rfl
  | succ n ih => intro o; rw [partsFrom, List.length_cons, ih]

theorem mem_partsFrom (S P : Nat) :
    ∀ n o r, r ∈ partsFrom S P n o ↔
      ∃ k < n, r = ⟨((o + k * P : Nat) : Int), ((min P (S - (o + k * P)) : Nat) : Int)⟩ := by
  intro n
  induction n with
  | zero => intro o r; simp [partsFrom]
  | succ n ih =>
      intro o r
      rw [partsFrom, List.mem_cons, ih (o + P)]
      constructor
      · rintro (rfl | ⟨k, hk, rfl⟩)
        · exact ⟨0, by omega, by norm_num⟩
        · exact ⟨k + 1, by omega, by rw [show o + (k + 1) * P = o + P + k * P by ring]⟩
      · rintro ⟨k, hk, rfl⟩
        rcases k with _ | k
        · left; norm_num
        · right
          exact ⟨k, by omega, by rw [show o + P + k * P = o + (k + 1) * P by ring]⟩

theorem partsFrom_pairwise (S P : Nat) (hP : 1 ≤ P) :
    ∀ n o, List.Pairwise (fun r₁ r₂ : Range => r₁.offset < r₂.offset)
      (partsFrom S P n o) := by
  intro n
  induction n with
  | zero => intro o; exact List.Pairwise.nil
  | succ n ih =>
      intro o
      rw [partsFrom]
      refine List.Pairwise.cons ?_ (ih (o + P))
      intro r hr
      obtain ⟨k, hk, rfl⟩ := (mem_partsFrom S P n (o + P) r).mp hr
      show (o : Int) < ((o + P + k * P : Nat) : Int)
      exact_mod_cast (by omega : o < o + P + k * P)

theorem partsFrom_nodup (S P : Nat) (hP : 1 ≤ P) (n o : Nat) : (partsFrom S P n o).Nodup :=
  (partsFrom_pairwise S P hP n o).imp
    (fun h heq => by rw [heq] at h; exact lt_irrefl _ h)

theorem offset_lt_of_lt_partCount {S P k o : Nat} (hk : k < partCount S P o) :
    o + k * P < S := by
  rw [partCount] at hk
  have hP : 0 < P := by
    by_contra h
    rw [show P = 0 by omega, Nat.div_zero] at hk
    omega
  have h1 : (k + 1) * P ≤ S - o + P - 1 := (Nat.le_div_iff_mul_le hP).mp hk
  have h2 : k * P + P = (k + 1) * P := by ring
  omega

theorem partsFrom_cover (S P : Nat) (hP : 1 ≤ P) (x : Nat) (hx : x < S) :
    ∃! r, r ∈ partsFrom S P (partCount S P 0) 0 ∧
      r.offset ≤ (x : Int) ∧ (x : Int) < r.offset + r.limit := by
  have hP0 : 0 < P := hP
  have hkN : x / P < partCount S P 0 := by
    rw [partCount, Nat.sub_zero, show S + P - 1 = (S - 1) + P by omega,
      Nat.add_div_right _ hP0]
    have := Nat.div_le_div_right (c := P) (by omega : x ≤ S - 1)
    omega
  have hdm : x / P * P + x % P = x := Nat.div_add_mod' x P
  have hmod : x % P < P := Nat.mod_lt x hP0
  have hmul_le : x / P * P ≤ x := Nat.div_mul_le_self x P
  refine ⟨⟨((0 + x / P * P : Nat) : Int), ((min P (S - (0 + x / P * P)) : Nat) : Int)⟩,
    ⟨?_, ?_, ?_⟩, ?_⟩
  · rw [mem_partsFrom]
    exact ⟨x / P, hkN, rfl⟩
  · show ((0 + x / P * P : Nat) : Int) ≤ (x : Int)
    exact_mod_cast (by omega : 0 + x / P * P ≤ x)
  · show (x : Int) < ((0 + x / P * P : Nat) : Int) + ((min P (S - (0 + x / P * P)) : Nat) : Int)
    have key : x < 0 + x / P * P + min P (S - (0 + x / P * P)) := by
      rcases Nat.le_total P (S - (0 + x / P * P)) with hmin | hmin
      · rw [min_eq_left hmin]; omega
      · rw [min_eq_right hmin]; omega
    exact_mod_cast key
  · rintro r' ⟨hmem, hle, hlt⟩
    obtain ⟨k', hk', rfl⟩ := (mem_partsFrom S P _ 0 r').mp hmem
    have hle' : ((0 + k' * P : Nat) : Int) ≤ (x : Int) := hle
    have hlt'c : (x : Int) < ((0 + k' * P : Nat) : Int)
        + ((min P (S - (0 + k' * P)) : Nat) : Int) := hlt
    have h5 : k' * P ≤ x := by
      have : (0 + k' * P : Nat) ≤ x := by exact_mod_cast hle'
      omega
    have h6 : x < k' * P + P := by
      have hmin : (min P (S - (0 + k' * P)) : Nat) ≤ P := min_le_left _ _
      have hlt' : x < 0 + k' * P + min P (S - (0 + k' * P)) := by exact_mod_cast hlt'c
      omega
    have ha : k' ≤ x / P := (Nat.le_div_iff_mul_le hP0).mpr h5
    have hb : x / P < k' + 1 := by
      rw [Nat.div_lt_iff_lt_mul hP0]
      calc x < k' * P + P := h6
        _ = (k' + 1) * P := by ring
    have hk : k' = x / P := by omega
    rw [hk]

theorem up_dispatch_succ (s : UploaderSt) (fuel : Nat) :
    (Uploader.dispatchRanges s (fuel + 1)).1
      = match Uploader.getNextRange s with
        | (none, _) => []
        | (some r, s') => r :: (Uploader.dispatchRanges s' fuel).1 := by
  rcases h : Uploader.getNextRange s with ⟨a, s'⟩
  rcases a with _ | r <;> simp [Uploader.dispatchRanges, h]

theorem upSkipLoop_nil (p s : Int) (fuel : Nat) (off : Int) :
    upSkipLoop [] p s (fuel + 1) off
      = if off ≥ s then (none, off) else (some off, wrap64 (off + p)) := by
  rw [upSkipLoop]
  split <;> rfl

theorem up_getNextRange_nil (p s o : Int) (g : List Nat) :
    Uploader.getNextRange ⟨p, s, o, [], g⟩
      = if o ≥ s then (none, ⟨p, s, o, [], g⟩)
        else (some ⟨o, if wrap64 (o + p) > s then wrap64 (s - o) else p⟩,
              ⟨p, s, wrap64 (o + p), [], g⟩) := by
  unfold Uploader.getNextRange
  dsimp only
  rw [upSkipLoop_nil]
  by_cases ho : o ≥ s
  · rw [if_pos ho, if_pos ho]
  · rw [if_neg ho, if_neg ho]

theorem up_down_dispatch_eq (p s : Int) (g f : List Nat) (th : Option GoString) :
    ∀ fuel o, (Uploader.dispatchRanges ⟨p, s, o, [], g⟩ fuel).1
      = (Downloader.dispatchRanges ⟨p, s, o, th, f⟩ fuel).1 := by
  intro fuel
  induction fuel with
  | zero => intro o; rfl
  | succ fuel ih =>
      intro o
      have hu := up_getNextRange_nil p s o g
      by_cases ho : o ≥ s
      · rw [if_pos ho] at hu
        rw [up_dispatch_succ, hu, down_dispatch_succ, down_getNextRange_ge ho th f]
      · rw [if_neg ho] at hu
        have hd : Downloader.getNextRange ⟨p, s, o, th, f⟩
            = (some ⟨o, if wrap64 (o + p) > s then wrap64 (s - o) else p⟩,
               ⟨p, s, wrap64 (o + p), th, f⟩) := by
          unfold Downloader.getNextRange
          dsimp only
          rw [if_neg ho]
        rw [up_dispatch_succ, hu, down_dispatch_succ, hd]
        dsimp only
        rw [ih]

/-- C3 (amended): for a file of `S > 0` bytes, part size `P ≥ 1` and no
pre-confirmed offsets, and in the absence of `int64` cursor overflow
(`S + P ≤ 2^63` — see the counterexample for larger values), the uploader
and the downloader dispatch the same range sequence, of exactly `⌈S/P⌉`
distinct ranges with strictly increasing offsets, each range inside `[0, S)`,
and every byte of `[0, S)` covered by exactly one range. -/
theorem dispatch_c3 (S P : Nat) (hS : 0 < S) (hP : 1 ≤ P) (hB : S + P ≤ 2 ^ 63)
    (th : Option GoString) (f g : List Nat) (fuel : Nat)
    (hfuel : (S + P - 1) / P ≤ fuel) :
    (Uploader.dispatchRanges ⟨(P : Int), (S : Int), 0, [], g⟩ fuel).1
        = (Downloader.dispatchRanges ⟨(P : Int), (S : Int), 0, th, f⟩ fuel).1 ∧
    (Downloader.dispatchRanges ⟨(P : Int), (S : Int), 0, th, f⟩ fuel).1.length
        = (S + P - 1) / P ∧
    List.Pairwise (fun r₁ r₂ : Range => r₁.offset < r₂.offset)
      (Downloader.dispatchRanges ⟨(P : Int), (S : Int), 0, th, f⟩ fuel).1 ∧
    (Downloader.dispatchRanges ⟨(P : Int), (S : Int), 0, th, f⟩ fuel).1.Nodup ∧
    (∀ r ∈ (Downloader.dispatchRanges ⟨(P : Int), (S : Int), 0, th, f⟩ fuel).1,
      0 ≤ r.offset ∧ 1 ≤ r.limit ∧ r.offset + r.limit ≤ (S : Int)) ∧
    (∀ x : Nat, x < S →
      ∃! r, r ∈ (Downloader.dispatchRanges ⟨(P : Int), (S : Int), 0, th, f⟩ fuel).1 ∧
        r.offset ≤ (x : Int) ∧ (x : Int) < r.offset + r.limit) := by
  have h0 : ((0 : Nat) : Int) = 0 := rfl
  have hcount : partCount S P 0 = (S + P - 1) / P := by
    rw [partCount, Nat.sub_zero]
  have hdisp : (Downloader.dispatchRanges ⟨(P : Int), (S : Int), 0, th, f⟩ fuel).1
      = partsFrom S P (partCount S P 0) 0 := by
    rw [← h0]
    exact down_dispatch_eq S P hP hB th f fuel 0 (by omega)
  refine ⟨up_down_dispatch_eq (P : Int) (S : Int) g f th fuel 0, ?_, ?_, ?_, ?_, ?_⟩
  · rw [hdisp, partsFrom_length, hcount]
  · rw [hdisp]
    exact partsFrom_pairwise S P hP _ 0
  · rw [hdisp]
    exact partsFrom_nodup S P hP _ 0
  · intro r hr
    rw [hdisp] at hr
    obtain ⟨k, hk, rfl⟩ := (mem_partsFrom S P _ 0 r).mp hr
    have hlt := offset_lt_of_lt_partCount hk
    refine ⟨by positivity, ?_, ?_⟩
    · show (1 : Int) ≤ ((min P (S - (0 + k * P)) : Nat) : Int)
      have : 1 ≤ min P (S - (0 + k * P)) := by omega
      exact_mod_cast this
    · show ((0 + k * P : Nat) : Int) + ((min P (S - (0 + k * P)) : Nat) : Int) ≤ (S : Int)
      have : 0 + k * P + min P (S - (0 + k * P)) ≤ S := by
        have := min_le_right P (S - (0 + k * P))
        omega
      exact_mod_cast this
  · intro x hx
    rw [hdisp]
    exact partsFrom_cover S P hP x hx

theorem dispatch_c3_witness :
    (Uploader.dispatchRanges ⟨((2 : Nat) : Int), ((5 : Nat) : Int), 0, [], []⟩ 3).1
        = (Downloader.dispatchRanges ⟨((2 : Nat) : Int), ((5 : Nat) : Int), 0, none, []⟩ 3).1 ∧
    (Downloader.dispatchRanges ⟨((2 : Nat) : Int), ((5 : Nat) : Int), 0, none, []⟩ 3).1.length
        = (5 + 2 - 1) / 2 ∧
    List.Pairwise (fun r₁ r₂ : Range => r₁.offset < r₂.offset)
      (Downloader.dispatchRanges ⟨((2 : Nat) : Int), ((5 : Nat) : Int), 0, none, []⟩ 3).1 ∧
    (Downloader.dispatchRanges ⟨((2 : Nat) : Int), ((5 : Nat) : Int), 0, none, []⟩ 3).1.Nodup ∧
    (∀ r ∈ (Downloader.dispatchRanges ⟨((2 : Nat) : Int), ((5 : Nat) : Int), 0, none, []⟩ 3).1,
      0 ≤ r.offset ∧ 1 ≤ r.limit ∧ r.offset + r.limit ≤ ((5 : Nat) : Int)) ∧
    (∀ x : Nat, x < 5 →
      ∃! r, r ∈ (Downloader.dispatchRanges ⟨((2 : Nat) : Int), ((5 : Nat) : Int), 0, none, []⟩ 3).1 ∧
        r.offset ≤ (x : Int) ∧ (x : Int) < r.offset + r.limit) :=
  dispatch_c3 5 2 (by decide) (by decide) (by decide) none [] [] 3 (by decide)

/-- C3 counterexample: with `S = 2^63 - 1` and `P = 2^63 - 2` (a file size
and part size both representable in `int64`, `S > 0`, `P ≥ 1`), `⌈S/P⌉ = 2`
but the first three cursor calls all yield ranges, with offsets
`0, 2^63 - 2, -4`: the `int64` cursor wraps, offsets are not strictly
increasing, the second range is not truncated to the remaining byte, and
byte 0 is covered again by the third range. -/
theorem dispatch_c3_counterexample :
    ((Downloader.dispatchRanges ⟨2 ^ 63 - 2, 2 ^ 63 - 1, 0, none, []⟩ 3).1.map Range.offset
      = [0, 2 ^ 63 - 2, -4]) ∧
    (((2 ^ 63 - 1) + (2 ^ 63 - 2) - 1) / (2 ^ 63 - 2) : Nat) = 2 ∧
    ¬ List.Pairwise (fun r₁ r₂ : Range => r₁.offset < r₂.offset)
      (Downloader.dispatchRanges ⟨2 ^ 63 - 2, 2 ^ 63 - 1, 0, none, []⟩ 3).1 := by
  refine ⟨by decide, by decide, by decide⟩

/-! ## C4 and C9: reconciliation of one listed part -/

theorem upSkipLoop_not_uploaded :
    ∀ (fuel : Nat) (uploaded : List Int) (p s off o' offF : Int),
      upSkipLoop uploaded p s fuel off = (some o', offF) →
      uploaded.contains o' = false := by
  intro fuel
  induction fuel with
  | zero =>
      intro uploaded p s off o' offF h
      simp [upSkipLoop] at h
  | succ fuel ih =>
      intro uploaded p s off o' offF h
      rw [upSkipLoop] at h
      by_cases hge : off ≥ s
      · rw [if_pos hge] at h
        simp at h
      · rw [if_neg hge] at h
        by_cases hc : uploaded.contains off = true
        · rw [if_pos hc] at h
          exact ih uploaded p s _ o' offF h
        · rw [if_neg hc] at h
          simp only [Prod.mk.injEq, Option.some_inj] at h
          rw [← h.1]
          exact Bool.eq_false_iff.mpr hc

theorem up_getNextRange_not_uploaded {s s' : UploaderSt} {r : Range}
    (h : Uploader.getNextRange s = (some r, s')) :
    s.uploaded.contains r.offset = false := by
  unfold Uploader.getNextRange at h
  rcases hsl : upSkipLoop s.uploaded s.partSize s.size
      ((s.size - s.offset).toNat + 1) s.offset with ⟨a, offF⟩
  rw [hsl] at h
  rcases a with _ | o
  · simp at h
  · simp only [Prod.mk.injEq, Option.some_inj] at h
    have : r.offset = o := by rw [← h.1]
    rw [this]
    exact upSkipLoop_not_uploaded _ s.uploaded s.partSize s.size s.offset o offF hsl

theorem up_getNextRange_uploaded_eq (s : UploaderSt) :
    (Uploader.getNextRange s).2.uploaded = s.uploaded := by
  unfold Uploader.getNextRange
  rcases hsl : upSkipLoop s.uploaded s.partSize s.size
      ((s.size - s.offset).toNat + 1) s.offset with ⟨a, offF⟩
  rcases a with _ | o <;> simp

theorem up_dispatch_not_uploaded :
    ∀ (fuel : Nat) (s : UploaderSt) (r : Range),
      r ∈ (Uploader.dispatchRanges s fuel).1 →
      s.uploaded.contains r.offset = false := by
  intro fuel
  induction fuel with
  | zero =>
      intro s r hr
      simp [Uploader.dispatchRanges] at hr
  | succ fuel ih =>
      intro s r hr
      rw [up_dispatch_succ] at hr
      rcases h : Uploader.getNextRange s with ⟨a, s'⟩
      rw [h] at hr
      rcases a with _ | r₀
      · simp at hr
      · rcases List.mem_cons.mp hr with rfl | hm
        · exact up_getNextRange_not_uploaded h
        · have hu := ih s' r hm
          have he : s'.uploaded = s.uploaded := by
            rw [← up_getNextRange_uploaded_eq s, h]
          rw [he] at hu
          exact hu

/-- C4: during reconciliation, for a listed part with a valid advertised
range whose offset is below the local file size and whose local hash
computation yields a value: on a hash match `checkPart` marks the offset
confirmed (and the cursor then never yields a range at that offset, for any
uploader state carrying the mark); on a mismatch it leaves the state
unchanged and returns no error. -/
theorem checkPart_c4 (s : UploaderSt) (p : PartListElement) (pr : Range)
    (hparse : RangeFromString p.rangeInBytes = some pr)
    (hoff : pr.offset < s.size) (th : GoString)
    (hhash : ComputeTreeHash (sectionBytes s.file pr.offset pr.limit) = some th)
    (remote : GoString) (hsha : p.sha256TreeHash = some remote) :
    (th = remote →
      Uploader.checkPart s p
          = some ((true, none), { s with uploaded := pr.offset :: s.uploaded }) ∧
      ∀ fuel r,
        r ∈ (Uploader.dispatchRanges { s with uploaded := pr.offset :: s.uploaded } fuel).1 →
        r.offset ≠ pr.offset) ∧
    (th ≠ remote → Uploader.checkPart s p = some ((false, none), s)) := by
  constructor
  · intro heq
    constructor
    · unfold Uploader.checkPart
      simp only [hparse]
      rw [if_neg (by omega)]
      simp only [hhash, hsha]
      rw [if_pos heq]
    · intro fuel r hr
      intro hEq
      have hcon := up_dispatch_not_uploaded fuel _ r hr
      rw [hEq] at hcon
      simp at hcon
  · intro hne
    unfold Uploader.checkPart
    simp only [hparse]
    rw [if_neg (by omega)]
    simp only [hhash, hsha]
    rw [if_neg hne]

theorem checkPart_c4_witness :
    let s : UploaderSt := ⟨4, 4, 0, [], [0x74, 0x65, 0x73, 0x74]⟩
    let d : GoString :=
      "9f86d081884c7d659a2feaa0c55ad015a3bf4f1b2b0b822cd15d6c15b0f00a08".data
    let p : PartListElement := ⟨"0-3".data, some d⟩
    (d = d →
      Uploader.checkPart s p
          = some ((true, none), { s with uploaded := (0 : Int) :: [] }) ∧
      ∀ fuel r,
        r ∈ (Uploader.dispatchRanges { s with uploaded := (0 : Int) :: [] } fuel).1 →
        r.offset ≠ (0 : Int)) ∧
    (d ≠ d → Uploader.checkPart s p = some ((false, none), s)) := by
  intro s d p
  have h := checkPart_c4 s p ⟨0, 4⟩ (by decide) (by decide) d (by decide) d rfl
  exact h

/-- C9: once the listed part's range parses, its offset is below the local
file size, and the local hash computation yields a value, `checkPart`
panics (nil dereference) exactly when the part carries no remote checksum —
nothing is returned, rather than an error; and reconciliation over a listing
holding such a part panics as well. -/
theorem checkPart_c9 (s : UploaderSt) (p : PartListElement) (pr : Range)
    (hparse : RangeFromString p.rangeInBytes = some pr)
    (hoff : pr.offset < s.size) (th : GoString)
    (hhash : ComputeTreeHash (sectionBytes s.file pr.offset pr.limit) = some th) :
    (Uploader.checkPart s p = none ↔ p.sha256TreeHash = none) ∧
    (p.sha256TreeHash = none → ∀ env : UploadEnv,
      env.pages = [⟨s.partSize, [p]⟩] →
      Uploader.checkUploadedParts env s = none) := by
  have hbase : ∀ rem, p.sha256TreeHash = rem →
      Uploader.checkPart s p
        = (match rem with
           | none => none
           | some remote =>
               if th = remote then
                 some ((true, none), { s with uploaded := pr.offset :: s.uploaded })
               else some ((false, none), s)) := by
    intro rem hrem
    unfold Uploader.checkPart
    simp only [hparse]
    rw [if_neg (by omega)]
    simp only [hhash, hrem]
  constructor
  · constructor
    · intro hnone
      rcases hrem : p.sha256TreeHash with _ | remote
      · rfl
      · rw [hbase _ hrem] at hnone
        dsimp only at hnone
        by_cases he : th = remote
        · rw [if_pos he] at hnone
          simp at hnone
        · rw [if_neg he] at hnone
          simp at hnone
    · intro hrem
      rw [hbase none hrem]
  · intro hrem env hpages
    unfold Uploader.checkUploadedParts
    rw [hpages]
    unfold checkPages
    rw [if_neg (by simp)]
    unfold checkParts
    rw [hbase none hrem]

theorem checkPart_c9_witness :
    let s : UploaderSt := ⟨4, 4, 0, [], [0x74, 0x65, 0x73, 0x74]⟩
    let p : PartListElement := ⟨"0-3".data, none⟩
    (Uploader.checkPart s p = none ↔ p.sha256TreeHash = none) ∧
    (p.sha256TreeHash = none → ∀ env : UploadEnv,
      env.pages = [⟨s.partSize, [p]⟩] →
      Uploader.checkUploadedParts env s = none) := by
  intro s p
  exact checkPart_c9 s p ⟨0, 4⟩ (by decide) (by decide)
    "9f86d081884c7d659a2feaa0c55ad015a3bf4f1b2b0b822cd15d6c15b0f00a08".data (by decide)

/-! ## C5: declared part size mismatch aborts before any upload request -/

/-- C5: whenever the remote part listing reports a declared part size other
than the configured one, the upload run (with the file open and the session
initiated or resumed) returns the error `part size mismatch`, and no part
upload request has been issued. -/
theorem upload_c5 (env : UploadEnv) (partSize : Int) (fuel : Nat)
    (content : List Nat) (hopen : env.fileContent = some content)
    (hinit : env.uploadId = [] → ∃ id, env.initiateResult = Except.ok id)
    (page : UploadPage) (rest : List UploadPage) (hpages : env.pages = page :: rest)
    (hmismatch : page.partSizeInBytes ≠ partSize) :
    ∃ evs, Uploader.Upload env partSize fuel
        = some (Except.error "part size mismatch".data, evs) ∧
      ∀ r c, UploadEvent.uploadPart r c ∉ evs := by
  have hcup : ∀ s : UploaderSt, s.partSize = partSize →
      Uploader.checkUploadedParts env s
        = some (Except.error "part size mismatch".data) := by
    intro s hs
    unfold Uploader.checkUploadedParts
    rw [hpages]
    unfold checkPages
    rw [if_pos (by rw [hs]; exact hmismatch)]
  have hc := hcup ⟨partSize, (content.length : Int), 0, [], content⟩ rfl
  unfold Uploader.Upload
  simp only [hopen]
  by_cases hid : env.uploadId = []
  · obtain ⟨id, hok⟩ := hinit hid
    simp only [hid, if_true, hok, hc]
    exact ⟨[UploadEvent.initiate], rfl, by intro r c h; simp at h⟩
  · simp only [hid, if_false, hc]
    exact ⟨[], rfl, by intro r c h; simp at h⟩

theorem upload_c5_witness :
    let env : UploadEnv :=
      ⟨some [0x74, 0x65, 0x73, 0x74], ['u'], Except.ok [], [⟨5, []⟩], none,
        fun _ => none, Except.ok []⟩
    ∃ evs, Uploader.Upload env 4 9
        = some (Except.error "part size mismatch".data, evs) ∧
      ∀ r c, UploadEvent.uploadPart r c ∉ evs := by
  intro env
  exact upload_c5 env 4 9 [0x74, 0x65, 0x73, 0x74] rfl
    (fun h => by simp at h) ⟨5, []⟩ [] rfl (by decide)

/-! ## C6: job validation -/

/-- C6: on every transport-error-free `describeJob` response, `checkJob`
behaves exactly as the claim describes (see `checkJobClaim`). -/
theorem checkJob_c6 (d : DownloaderSt) (res : JobDesc) :
    Downloader.checkJob d res = checkJobClaim d res := by
  unfold Downloader.checkJob checkJobClaim
  by_cases ha : res.action = "ArchiveRetrieval".data
  · rw [if_neg (not_ne_iff.mpr ha), if_neg (not_ne_iff.mpr ha)]
    by_cases hs : res.statusCode = "Succeeded".data
    · rw [if_neg (not_ne_iff.mpr hs), if_neg (by rw [hs]; decide),
        if_neg (by rw [hs]; decide), if_neg (not_ne_iff.mpr hs)]
      rcases res.sha256TreeHash with _ | th
      · rfl
      · rcases res.archiveSizeInBytes with _ | sz <;> rfl
    · rw [if_pos hs]
      by_cases hip : res.statusCode = "InProgress".data
      · rw [if_pos hip, if_pos hip]
      · rw [if_neg hip, if_neg hip]
        by_cases hf : res.statusCode = "Failed".data
        · rw [if_pos hf, if_pos hf]
          rcases res.statusMessage with _ | m <;> rfl
        · rw [if_neg hf, if_neg hf, if_pos hs]
  · rw [if_pos ha, if_pos ha]

/-! ## C7: final verification is the backstop; worker failures do not abort -/

theorem down_getNextRange_cases (d : DownloaderSt) :
    Downloader.getNextRange d
      = if d.offset ≥ d.size then (none, d)
        else (some ⟨d.offset, if wrap64 (d.offset + d.partSize) > d.size
                              then wrap64 (d.size - d.offset) else d.partSize⟩,
              { d with offset := wrap64 (d.offset + d.partSize) }) := rfl

theorem down_getNextRange_fields (d : DownloaderSt) :
    (Downloader.getNextRange d).2.partSize = d.partSize ∧
    (Downloader.getNextRange d).2.size = d.size ∧
    (Downloader.getNextRange d).2.treeHash = d.treeHash ∧
    (Downloader.getNextRange d).2.file = d.file := by
  rw [down_getNextRange_cases]
  split <;> exact ⟨rfl, rfl, rfl, rfl⟩

theorem down_downloadPart_fields (env : DownloadEnv) (d : DownloaderSt) (r : Range) :
    (Downloader.downloadPart env d r).2.partSize = d.partSize ∧
    (Downloader.downloadPart env d r).2.size = d.size ∧
    (Downloader.downloadPart env d r).2.offset = d.offset ∧
    (Downloader.downloadPart env d r).2.treeHash = d.treeHash := by
  unfold Downloader.downloadPart
  rcases hf : env.fetch r with e | ⟨body, ck⟩
  · exact ⟨rfl, rfl, rfl, rfl⟩
  · dsimp only
    split
    · exact ⟨rfl, rfl, rfl, rfl⟩
    · rcases ck with _ | remote
      · exact ⟨rfl, rfl, rfl, rfl⟩
      · rcases hth : ComputeTreeHash body with _ | th
        · exact ⟨rfl, rfl, rfl, rfl⟩
        · dsimp only
          split
          · exact ⟨rfl, rfl, rfl, rfl⟩
          · exact ⟨rfl, rfl, rfl, rfl⟩

theorem down_dispatch_coords :
    ∀ (fuel : Nat) (d e : DownloaderSt), d.partSize = e.partSize → d.size = e.size →
      d.offset = e.offset →
      (Downloader.dispatchRanges d fuel).1 = (Downloader.dispatchRanges e fuel).1 := by
  intro fuel
  induction fuel with
  | zero => intro d e _ _ _; rfl
  | succ fuel ih =>
      intro d e h1 h2 h3
      rw [down_dispatch_succ, down_dispatch_succ,
        down_getNextRange_cases d, down_getNextRange_cases e, h1, h2, h3]
      by_cases hge : e.offset ≥ e.size
      · rw [if_pos hge, if_pos hge]
      · rw [if_neg hge, if_neg hge]
        dsimp only
        exact congrArg _ (ih
          ⟨e.partSize, e.size, wrap64 (e.offset + e.partSize), d.treeHash, d.file⟩
          ⟨e.partSize, e.size, wrap64 (e.offset + e.partSize), e.treeHash, e.file⟩
          rfl rfl rfl)

theorem down_multipart_attempts (env : DownloadEnv) :
    ∀ (fuel : Nat) (d : DownloaderSt),
      (Downloader.multipartDownload env d fuel).2 = (Downloader.dispatchRanges d fuel).1 := by
  intro fuel
  induction fuel with
  | zero => intro d; rfl
  | succ fuel ih =>
      intro d
      rw [down_dispatch_succ]
      rcases hg : Downloader.getNextRange d with ⟨a, d'⟩
      rcases a with _ | r
      · simp [Downloader.multipartDownload, hg]
      · rcases hdp : Downloader.downloadPart env d' r with ⟨err, d''⟩
        rcases hmp : Downloader.multipartDownload env d'' fuel with ⟨dF, rs⟩
        simp only [Downloader.multipartDownload, hg, hdp, hmp]
        have hfields := down_downloadPart_fields env d' r
        rw [hdp] at hfields
        have : rs = (Downloader.dispatchRanges d'' fuel).1 := by
          rw [← ih d'', hmp]
        rw [this, down_dispatch_coords fuel d'' d' hfields.1 hfields.2.1 hfields.2.2.1]

theorem down_multipart_treeHash (env : DownloadEnv) :
    ∀ (fuel : Nat) (d : DownloaderSt),
      (Downloader.multipartDownload env d fuel).1.treeHash = d.treeHash := by
  intro fuel
  induction fuel with
  | zero => intro d; rfl
  | succ fuel ih =>
      intro d
      rcases hg : Downloader.getNextRange d with ⟨a, d'⟩
      have hgf := down_getNextRange_fields d
      rw [hg] at hgf
      rcases a with _ | r
      · simp only [Downloader.multipartDownload, hg]
        exact hgf.2.2.1
      · rcases hdp : Downloader.downloadPart env d' r with ⟨err, d''⟩
        rcases hmp : Downloader.multipartDownload env d'' fuel with ⟨dF, rs⟩
        simp only [Downloader.multipartDownload, hg, hdp, hmp]
        have hfields := down_downloadPart_fields env d' r
        rw [hdp] at hfields
        have : dF.treeHash = d''.treeHash := by
          rw [← ih d'', hmp]
        rw [this, hfields.2.2.2, hgf.2.2.1]

/-- Helper for C7 and C10: a download run whose validation steps succeed ends
with exactly the final verification's verdict, and attempts exactly the
cursor's range sequence. -/
theorem download_run_verdict (env : DownloadEnv) (fuel : Nat) (job : JobDesc)
    (hjob : env.jobResult = Except.ok job)
    (haction : job.action = "ArchiveRetrieval".data)
    (hstatus : job.statusCode = "Succeeded".data)
    (exp : GoString) (hsha : job.sha256TreeHash = some exp)
    (S : Int) (hsize : job.archiveSizeInBytes = some S)
    (hexists : env.fileExists = false) (htrunc : env.truncateErr = none) :
    Downloader.Download env fuel
      = some
        ((match ComputeTreeHash (Downloader.multipartDownload env
              ⟨env.partSize, S, 0, some exp, List.replicate S.toNat 0⟩ fuel).1.file with
          | none => Except.error "could not compute hash".data
          | some th =>
              if th ≠ exp then Except.error "hash mismatch".data else Except.ok ()),
          (Downloader.multipartDownload env
              ⟨env.partSize, S, 0, some exp, List.replicate S.toNat 0⟩ fuel).2) ∧
    (Downloader.multipartDownload env
        ⟨env.partSize, S, 0, some exp, List.replicate S.toNat 0⟩ fuel).2
      = (Downloader.dispatchRanges
          ⟨env.partSize, S, 0, some exp, List.replicate S.toNat 0⟩ fuel).1 := by
  have hcj : Downloader.checkJob ⟨env.partSize, 0, 0, none, []⟩ job
      = some (Except.ok ⟨env.partSize, S, 0, some exp, []⟩) := by
    unfold Downloader.checkJob
    rw [if_neg (not_ne_iff.mpr haction), if_neg (not_ne_iff.mpr hstatus)]
    simp only [hsha, hsize]
  refine ⟨?_, down_multipart_attempts env fuel _⟩
  unfold Downloader.Download
  simp only [hjob, hcj, hexists, htrunc]
  rcases hmp : Downloader.multipartDownload env
      ⟨env.partSize, S, 0, some exp, List.replicate S.toNat 0⟩ fuel with ⟨d3, attempts⟩
  simp only [Bool.false_eq_true, if_false, hmp]
  have hth3 : d3.treeHash = some exp := by
    have := down_multipart_treeHash env fuel
      ⟨env.partSize, S, 0, some exp, List.replicate S.toNat 0⟩
    rw [hmp] at this
    exact this
  unfold Downloader.checkTreeHash
  rcases hht : ComputeTreeHash d3.file with _ | th
  · rfl
  · rw [hth3]
    dsimp only
    by_cases he : th = exp
    · rw [if_neg (not_ne_iff.mpr he), if_neg (not_ne_iff.mpr he)]
    · rw [if_pos he, if_pos he]

/-- C7: in a download run whose job validation, output-file creation and
truncation succeed, the run's verdict is exactly the final whole-file
verification's: it fails when hashing the completed output yields no value or
a digest other than the recorded whole-archive hash, and succeeds otherwise —
per-range worker outcomes never surface at dispatch time, and the ranges
attempted are exactly the cursor's range sequence, whatever the per-range
fetch results. -/
theorem download_c7 (env : DownloadEnv) (fuel : Nat) (job : JobDesc)
    (hjob : env.jobResult = Except.ok job)
    (haction : job.action = "ArchiveRetrieval".data)
    (hstatus : job.statusCode = "Succeeded".data)
    (exp : GoString) (hsha : job.sha256TreeHash = some exp)
    (S : Int) (hsize : job.archiveSizeInBytes = some S)
    (hexists : env.fileExists = false) (htrunc : env.truncateErr = none) :
    Downloader.Download env fuel
      = some
        ((match ComputeTreeHash (Downloader.multipartDownload env
              ⟨env.partSize, S, 0, some exp, List.replicate S.toNat 0⟩ fuel).1.file with
          | none => Except.error "could not compute hash".data
          | some th =>
              if th ≠ exp then Except.error "hash mismatch".data else Except.ok ()),
          (Downloader.multipartDownload env
              ⟨env.partSize, S, 0, some exp, List.replicate S.toNat 0⟩ fuel).2) ∧
    (Downloader.multipartDownload env
        ⟨env.partSize, S, 0, some exp, List.replicate S.toNat 0⟩ fuel).2
      = (Downloader.dispatchRanges
          ⟨env.partSize, S, 0, some exp, List.replicate S.toNat 0⟩ fuel).1 :=
  download_run_verdict env fuel job hjob haction hstatus exp hsha S hsize hexists htrunc

theorem download_c7_witness :
    let job : JobDesc :=
      ⟨"ArchiveRetrieval".data, "Succeeded".data, none, some 1, some ['x']⟩
    let env : DownloadEnv :=
      ⟨Except.ok job, false, none, fun _ => Except.error ['e'], 1⟩
    Downloader.Download env 2
      = some
        ((match ComputeTreeHash (Downloader.multipartDownload env
              ⟨env.partSize, 1, 0, some ['x'], List.replicate (1 : Int).toNat 0⟩ 2).1.file with
          | none => Except.error "could not compute hash".data
          | some th =>
              if th ≠ ['x'] then Except.error "hash mismatch".data else Except.ok ()),
          (Downloader.multipartDownload env
              ⟨env.partSize, 1, 0, some ['x'], List.replicate (1 : Int).toNat 0⟩ 2).2) ∧
    (Downloader.multipartDownload env
        ⟨env.partSize, 1, 0, some ['x'], List.replicate (1 : Int).toNat 0⟩ 2).2
      = (Downloader.dispatchRanges
          ⟨env.partSize, 1, 0, some ['x'], List.replicate (1 : Int).toNat 0⟩ 2).1 := by
  intro job env
  exact download_c7 env 2 job rfl rfl rfl ['x'] rfl 1 rfl rfl rfl

/-! ## C10: zero-byte archives can never transfer -/

theorem checkPages_empty_parts :
    ∀ (pages : List UploadPage) (s : UploaderSt),
      (∀ page ∈ pages, page.partSizeInBytes = s.partSize ∧ page.parts = []) →
      checkPages s pages = some (Except.ok s) := by
  intro pages
  induction pages with
  | nil => intro s _; rfl
  | cons page rest ih =>
      intro s h
      have hp := h page (by simp)
      unfold checkPages
      rw [if_neg (not_ne_iff.mpr hp.1), hp.2]
      simp only [show checkParts s [] = some (Except.ok s) from rfl]
      exact ih s (fun pg hm => h pg (by simp [hm]))

/-- C10: a zero-byte archive can never transfer. Uploading a zero-byte source
(with the session initiated or resumed and an empty remote part listing)
dispatches no part and always fails completion with `could not compute
hashes`; downloading a job whose recorded archive size is zero attempts no
range and always fails the final verification with `could not compute
hash`. -/
theorem zero_byte_c10 :
    (∀ (env : UploadEnv) (partSize : Int) (fuel : Nat),
      env.fileContent = some [] →
      (env.uploadId = [] → ∃ id, env.initiateResult = Except.ok id) →
      (∀ page ∈ env.pages, page.partSizeInBytes = partSize ∧ page.parts = []) →
      env.listErr = none →
      ∃ evs, Uploader.Upload env partSize fuel
          = some (Except.error "could not compute hashes".data, evs) ∧
        ∀ r c, UploadEvent.uploadPart r c ∉ evs) ∧
    (∀ (env : DownloadEnv) (fuel : Nat) (job : JobDesc) (exp : GoString),
      env.jobResult = Except.ok job →
      job.action = "ArchiveRetrieval".data →
      job.statusCode = "Succeeded".data →
      job.sha256TreeHash = some exp →
      job.archiveSizeInBytes = some 0 →
      env.fileExists = false → env.truncateErr = none →
      Downloader.Download env fuel
        = some (Except.error "could not compute hash".data, [])) := by
  constructor
  · intro env partSize fuel hopen hinit hpages hlist
    have hmu : ∀ fl : Nat,
        Uploader.multipartUpload env ⟨partSize, 0, 0, [], []⟩ fl
          = (⟨partSize, 0, 0, [], []⟩, []) := by
      intro fl
      cases fl <;> rfl
    have hcup : Uploader.checkUploadedParts env ⟨partSize, 0, 0, [], []⟩
        = some (Except.ok ⟨partSize, 0, 0, [], []⟩) := by
      unfold Uploader.checkUploadedParts
      rw [checkPages_empty_parts env.pages ⟨partSize, 0, 0, [], []⟩ hpages, hlist]
    unfold Uploader.Upload
    simp only [hopen, List.length_nil, Nat.cast_zero, hcup, hmu fuel]
    by_cases hid : env.uploadId = []
    · obtain ⟨id, hok⟩ := hinit hid
      simp only [hid, if_true, hok]
      exact ⟨[UploadEvent.initiate] ++ [], rfl, by intro r c h; simp at h⟩
    · simp only [hid, if_false]
      exact ⟨[] ++ [], rfl, by intro r c h; simp at h⟩
  · intro env fuel job exp hjob haction hstatus hsha hsize hexists htrunc
    have h7 := download_run_verdict env fuel job hjob haction hstatus exp hsha 0 hsize
      hexists htrunc
    have hm0 : Downloader.multipartDownload env
        ⟨env.partSize, 0, 0, some exp, List.replicate (0 : Int).toNat 0⟩ fuel
          = (⟨env.partSize, 0, 0, some exp, List.replicate (0 : Int).toNat 0⟩, []) := by
      cases fuel <;> rfl
    rw [h7.1, hm0]
    rfl

theorem zero_byte_c10_witness :
    (∃ evs, Uploader.Upload
        ⟨some [], ['u'], Except.ok [], [⟨4, []⟩], none, fun _ => none, Except.ok []⟩ 4 9
          = some (Except.error "could not compute hashes".data, evs) ∧
        ∀ r c, UploadEvent.uploadPart r c ∉ evs) ∧
    Downloader.Download
        ⟨Except.ok ⟨"ArchiveRetrieval".data, "Succeeded".data, none, some 0, some ['x']⟩,
          false, none, fun _ => Except.error ['e'], 4⟩ 9
      = some (Except.error "could not compute hash".data, []) := by
  constructor
  · exact zero_byte_c10.1
      ⟨some [], ['u'], Except.ok [], [⟨4, []⟩], none, fun _ => none, Except.ok []⟩ 4 9
      rfl (fun h => by simp at h) (by intro page hm; simp at hm; simp [hm]) rfl
  · exact zero_byte_c10.2
      ⟨Except.ok ⟨"ArchiveRetrieval".data, "Succeeded".data, none, some 0, some ['x']⟩,
        false, none, fun _ => Except.error ['e'], 4⟩ 9
      ⟨"ArchiveRetrieval".data, "Succeeded".data, none, some 0, some ['x']⟩ ['x']
      rfl rfl rfl rfl rfl rfl rfl

end Surge
